import Mathlib

/-!
# Verification of the `srn` batch file-renamer against its specification

This development gives a shallow embedding, in Lean 4, of the core pipeline of
the `srn` repository (`src/srn/core.py`, `src/srn/analyzers.py`,
`src/srn/cli.py`) and proves or refutes the specification's claims about it.

Modelling conventions:
* Python strings are modelled as `List Char`; a Python value that may be
  `None` is an `Option`.
* Python exceptions that escape a function are modelled with `Except`.
* Filesystem state (which paths exist) is passed explicitly as a snapshot,
  and the outcome of the one `rename` system call is an explicit input.
* The remote Gemini service is external: its textual response is an input.
* `re.sub`/`re.findall` uses are embedded as the equivalent character-level
  scans; Python's `\w` class is modelled on its ASCII fragment
  (alphanumeric or underscore).  Every sanitization theorem below is proved
  generically in the word-character class, so this restriction is immaterial.
-/

namespace Srn

/-- Shorthand: the character list of a string literal. -/
def strL (s : String) : List Char := s.data

/-- The `{` character, kept as a named constant. -/
def lbrace : Char := Char.ofNat 123

/-- The `}` character, kept as a named constant. -/
def rbrace : Char := Char.ofNat 125

/-- The `'` character, kept as a named constant. -/
def squote : Char := Char.ofNat 39

/-- Characters stripped by Python's `str.strip()` with no argument
(ASCII whitespace fragment). -/
def pyIsSpace (c : Char) : Bool :=
  c = ' ' || c = '\t' || c = '\n' || c = '\r' || c = Char.ofNat 11 || c = Char.ofNat 12

/-- Python `str.strip()`: drop leading and trailing whitespace. -/
def pyStrip (s : List Char) : List Char :=
  ((s.dropWhile pyIsSpace).reverse.dropWhile pyIsSpace).reverse

/-- Python `str.replace(old, new)` for a non-empty pattern `old`: replace all
non-overlapping occurrences, scanning left to right.  (The sources only call
it with the non-empty patterns `"```json"` and `"```"`; for an empty pattern
this model returns the string unchanged.) -/
def pyReplaceGo (old new : List Char) : Nat → List Char → List Char
  | _, [] => []
  | 0, s => s
  | fuel + 1, c :: rest =>
    if old ≠ [] ∧ old.isPrefixOf (c :: rest) then
      new ++ pyReplaceGo old new fuel ((c :: rest).drop old.length)
    else
      c :: pyReplaceGo old new fuel rest

/-- Python `str.replace(old, new)`.  Each recursion step of `pyReplaceGo`
consumes at least one character, so fuelling it with the input length makes
the recursion structural without changing its value. -/
def pyReplace (old new s : List Char) : List Char :=
  pyReplaceGo old new s.length s

/-- The code-fence cleaning applied to a Gemini response
(`analyzers.py`, line 29 of `DocumentAnalyzer.parse_gemini_response`):
`response_text.strip().replace("```json", "").replace("```", "").strip()`. -/
def cleanText (response_text : List Char) : List Char :=
  pyStrip (pyReplace (strL "```") [] (pyReplace (strL "```json") [] (pyStrip response_text)))

/-!
## JSON values and `json.loads`

The parsed form of a Gemini response.  `json.loads` maps JSON `null` to
Python `None`; `Json.null` models that value uniformly, so a function that
"returns `None`" in Python returns `Json.null` here when its result came from
the parser.  A number is kept exactly as mantissa and decimal exponent
(value `m * 10 ^ e`); only its zero-ness is ever consumed by the program
(via truthiness), so the float rounding Python applies is not modelled.
Python's `json.loads` also accepts the non-standard constants `NaN`,
`Infinity` and `-Infinity`; they are kept as dedicated constructors. -/
inductive Json where
  | null
  | bool (b : Bool)
  | num (m : Int) (e : Int)
  | nan
  | inf
  | ninf
  | str (s : List Char)
  | arr (elems : List Json)
  | obj (fields : List (List Char × Json))

/-- JSON whitespace accepted between tokens by `json.loads`. -/
def jsonWs (c : Char) : Bool :=
  c = ' ' || c = '\t' || c = '\n' || c = '\r'

/-- Decimal digit test. -/
def isDigitCh (c : Char) : Bool := '0' ≤ c && c ≤ '9'

/-- Value of a decimal digit character. -/
def digitVal (c : Char) : Nat := c.toNat - 48

/-- Parse one or more decimal digits; returns their value, count and the rest. -/
def parseDigits : List Char → Nat → Nat → Option (Nat × Nat × List Char)
  | [], 0, _ => none
  | [], n, acc => some (acc, n, [])
  | c :: rest, n, acc =>
    if isDigitCh c then parseDigits rest (n + 1) (acc * 10 + digitVal c)
    else if n = 0 then none
    else some (acc, n, c :: rest)

/-- Parse a JSON number after an optional leading `-` has been recorded:
integer part (`0` or a nonzero-led digit run), optional fraction, optional
exponent.  Returns the `Json.num` mantissa/exponent and the rest. -/
def parseNumber (neg : Bool) (s : List Char) : Option (Json × List Char) := do
  let (ip, ilen, r1) ← parseDigits s 0 0
  -- leading zeros are rejected: "0" is fine, "01" is not
  if ilen > 1 ∧ s.headD '0' = '0' then none else
  let (m1, e1, r2) ←
    match r1 with
    | '.' :: r => do
      let (fp, flen, r') ← parseDigits r 0 0
      pure (ip * 10 ^ flen + fp, -(flen : Int), r')
    | _ => pure (ip, (0 : Int), r1)
  let (m2, e2, r3) ←
    match r2 with
    | c :: r =>
      if c = 'e' ∨ c = 'E' then
        match r with
        | '+' :: r' => do
          let (xp, _, r'') ← parseDigits r' 0 0
          pure (m1, e1 + (xp : Int), r'')
        | '-' :: r' => do
          let (xp, _, r'') ← parseDigits r' 0 0
          pure (m1, e1 - (xp : Int), r'')
        | _ => do
          let (xp, _, r'') ← parseDigits r 0 0
          pure (m1, e1 + (xp : Int), r'')
      else pure (m1, e1, r2)
    | [] => pure (m1, e1, r2)
  pure (.num (if neg then -(m2 : Int) else (m2 : Int)) e2, r3)

/-- Hexadecimal digit value. -/
def hexVal (c : Char) : Option Nat :=
  if isDigitCh c then some (digitVal c)
  else if 'a' ≤ c ∧ c ≤ 'f' then some (c.toNat - 87)
  else if 'A' ≤ c ∧ c ≤ 'F' then some (c.toNat - 55)
  else none

/-- Parse the body of a JSON string (the opening quote already consumed).
Fuelled; each step consumes at least one character, so the fuel
`length + 1` supplied at every call site never runs out.  Escapes are
decoded; a `\uXXXX` escape outside the valid scalar range yields the
null scalar (Python keeps lone surrogates in its `str`; no claim depends
on that corner).  Unescaped control characters are rejected, as
`json.loads` does in its default strict mode. -/
def parseJString : Nat → List Char → Option (List Char × List Char)
  | 0, _ => none
  | _ + 1, [] => none
  | fuel + 1, c :: rest =>
    let cont (d : Char) (r : List Char) : Option (List Char × List Char) := do
      let (tail, r') ← parseJString fuel r
      pure (d :: tail, r')
    if c = '"' then some ([], rest)
    else if c = '\\' then
      match rest with
      | [] => none
      | e :: rest' =>
        if e = '"' then cont '"' rest'
        else if e = '\\' then cont '\\' rest'
        else if e = '/' then cont '/' rest'
        else if e = 'b' then cont (Char.ofNat 8) rest'
        else if e = 'f' then cont (Char.ofNat 12) rest'
        else if e = 'n' then cont '\n' rest'
        else if e = 'r' then cont '\r' rest'
        else if e = 't' then cont '\t' rest'
        else if e = 'u' then
          match rest' with
          | h1 :: h2 :: h3 :: h4 :: r => do
            let v1 ← hexVal h1
            let v2 ← hexVal h2
            let v3 ← hexVal h3
            let v4 ← hexVal h4
            cont (Char.ofNat (((v1 * 16 + v2) * 16 + v3) * 16 + v4)) r
          | _ => none
        else none
    else if c.toNat < 32 then none
    else cont c rest

/-- Expect a literal word at the head of the input. -/
def expectWord (w : List Char) (s : List Char) : Option (List Char) :=
  if w.isPrefixOf s then some (s.drop w.length) else none

/-- Skip JSON whitespace. -/
def skipWsL (s : List Char) : List Char := s.dropWhile jsonWs

mutual

/-- Recursive-descent parser for one JSON value, fuelled to make the nesting
recursion structural.  Mirrors the grammar accepted by Python's
`json.loads` (with its `NaN`/`Infinity` extensions). -/
def parseValue : Nat → List Char → Option (Json × List Char)
  | 0, _ => none
  | _ + 1, [] => none
  | fuel + 1, c :: rest =>
    if c = 'n' then (expectWord (strL "ull") rest).map ((.null, ·))
    else if c = 't' then (expectWord (strL "rue") rest).map ((.bool true, ·))
    else if c = 'f' then (expectWord (strL "alse") rest).map ((.bool false, ·))
    else if c = 'N' then (expectWord (strL "aN") rest).map ((.nan, ·))
    else if c = 'I' then (expectWord (strL "nfinity") rest).map ((.inf, ·))
    else if c = '"' then (parseJString (rest.length + 1) rest).map (fun (s, r) => (.str s, r))
    else if c = '-' then
      match rest with
      | 'I' :: r => (expectWord (strL "nfinity") r).map ((.ninf, ·))
      | _ => parseNumber true rest
    else if isDigitCh c then parseNumber false (c :: rest)
    else if c = lbrace then
      match skipWsL rest with
      | d :: r' =>
        if d = rbrace then some (.obj [], r')
        else parseMembers fuel (d :: r') []
      | [] => none
    else if c = '[' then
      match skipWsL rest with
      | ']' :: r' => some (.arr [], r')
      | s' => parseElements fuel s' []
    else none

/-- Parse the comma-separated members of an object (after `{`, first member
not yet consumed).  `acc` holds the members parsed so far, in order. -/
def parseMembers : Nat → List Char → List (List Char × Json) →
    Option (Json × List Char)
  | 0, _, _ => none
  | fuel + 1, s, acc =>
    match skipWsL s with
    | '"' :: r => do
      let (key, r1) ← parseJString (r.length + 1) r
      match skipWsL r1 with
      | ':' :: r2 => do
        let (v, r3) ← parseValue fuel (skipWsL r2)
        match skipWsL r3 with
        | ',' :: r4 => parseMembers fuel r4 (acc ++ [(key, v)])
        | d :: r4 => if d = rbrace then some (.obj (acc ++ [(key, v)]), r4) else none
        | [] => none
      | _ => none
    | _ => none

/-- Parse the comma-separated elements of an array (after `[`, first element
not yet consumed). -/
def parseElements : Nat → List Char → List Json → Option (Json × List Char)
  | 0, _, _ => none
  | fuel + 1, s, acc => do
    let (v, r) ← parseValue fuel (skipWsL s)
    match skipWsL r with
    | ',' :: r' => parseElements fuel r' (acc ++ [v])
    | ']' :: r' => some (.arr (acc ++ [v]), r')
    | _ => none

end

/-- Python's `json.loads` on this model: parse exactly one JSON document,
allowing surrounding whitespace; anything else is a `JSONDecodeError`,
modelled as `none`. -/
def json_loads (s : List Char) : Option Json :=
  match parseValue (s.length + 1) (skipWsL s) with
  | some (v, rest) => if skipWsL rest = [] then some v else none
  | none => none

/-- Python truthiness of a parsed JSON value: `None`, `False`, numeric zero,
and empty strings/lists/dicts are falsy.  (A dict built from an object's
members is empty exactly when the member list is; an exact-zero mantissa is
exactly Python's zero test on the number, float underflow aside, which no
literal in the program's reach exercises.) -/
def pyTruthy : Json → Bool
  | .null => false
  | .bool b => b
  | .num m _ => m ≠ 0
  | .nan => true
  | .inf => true
  | .ninf => true
  | .str s => ¬s.isEmpty
  | .arr xs => ¬xs.isEmpty
  | .obj kvs => ¬kvs.isEmpty

/-!
## `DocumentAnalyzer.parse_gemini_response` (`analyzers.py` lines 18-41)

Both analyzer classes carry a character-for-character identical copy of this
static method, so a single embedding covers the dispatch on either analyzer.
The `print(..., file=sys.stderr)` calls become an event log; the
`except Exception` fallback branch (`UnknownParseError`) has no reachable
counterpart here because the only exception the guarded block can raise in
reach is `json.JSONDecodeError`. -/

/-- One diagnostic line printed to stderr by `parse_gemini_response`.
`invalidJson` carries the text it reports: the original raw response. -/
inductive ParseLog where
  | emptyResponse
  | emptyAfterCleaning
  | invalidJson (reported : List Char)
deriving DecidableEq

/-- `parse_gemini_response`: returns the Python value of the parse attempt
(`Json.null` both for the failure returns of `None` and for a successful
parse of the JSON document `null`) together with the diagnostics printed. -/
def parse_gemini_response (response_text : List Char) : Json × List ParseLog :=
  if response_text.isEmpty then (.null, [.emptyResponse])
  else
    let clean_text := cleanText response_text
    if clean_text.isEmpty then (.null, [.emptyAfterCleaning])
    else
      match json_loads clean_text with
      | some data => (data, [])
      | none => (.null, [.invalidJson response_text])

/-!
## Name formatting (`core.py` lines 9-47)

`format_new_name` builds the new base name from the parsed info, then
sanitizes it.  The trailing sanitization (lines 42-46) is factored out as
`sanitizeWith`, parametrised by the word-character class `W` standing for
Python's `\w`, so its properties can be proved for every such class. -/

/-- ASCII fragment of Python's regex class `\w`. -/
def pyWordChar (c : Char) : Bool := c.isAlphanum || c = '_'

/-- A character collapsed by the `re.sub(r'[_.-]+', '_', ...)` step. -/
def isCollapsible (c : Char) : Bool := c = '_' || c = '.' || c = '-'

/-- `re.sub(r'[_.-]+', '_', s)`: every maximal run of underscores, dots and
hyphens becomes a single underscore. -/
def collapseRuns : List Char → List Char
  | [] => []
  | [c] => if isCollapsible c then ['_'] else [c]
  | c :: d :: rest =>
    if isCollapsible c then
      if isCollapsible d then collapseRuns (d :: rest)
      else '_' :: collapseRuns (d :: rest)
    else c :: collapseRuns (d :: rest)

/-- `s.strip('_')`: drop leading and trailing underscores. -/
def stripUnderscores (s : List Char) : List Char :=
  ((s.dropWhile (· = '_')).reverse.dropWhile (· = '_')).reverse

/-- Lines 42-46 of `core.py`, over an arbitrary word-character class `W`:
replace spaces with `_`; delete characters outside `\w`, `-`, `_`, `.`;
collapse `[_.-]` runs to one `_`; strip outer underscores. -/
def sanitizeWith (W : Char → Bool) (s : List Char) : List Char :=
  stripUnderscores (collapseRuns
    ((s.map fun c => if c = ' ' then '_' else c).filter
      fun c => W c || c = '-' || c = '_' || c = '.'))

/-- The program's sanitization: `sanitizeWith` at Python's `\w`. -/
def sanitize (s : List Char) : List Char := sanitizeWith pyWordChar s

/-- The exceptions the formatting step can raise: calling `.get` on a value
that is not a dict (`AttributeError`), or joining a truthy non-string
(`TypeError`).  Python's message strings are not modelled. -/
inductive PyErr where
  | attributeError
  | typeError
deriving DecidableEq

/-- Python dict lookup `info.get(key)` on the member list of a parsed JSON
object: the dict keeps the last of a repeated key, and a missing key gives
`None`. -/
def pyGet (kvs : List (List Char × Json)) (key : List Char) : Json :=
  match kvs.reverse.find? (fun p => p.1 = key) with
  | some p => p.2
  | none => .null

/-- `info.get(key)` on an arbitrary parsed value: raises `AttributeError`
unless the value is a dict. -/
def jsonGet (info : Json) (key : List Char) : Except PyErr Json :=
  match info with
  | .obj kvs => .ok (pyGet kvs key)
  | _ => .error .attributeError

/-- Python string equality test `value == "lit"` where `value` is an
arbitrary object: false unless it is that string. -/
def jsonIsStr (v : Json) (s : List Char) : Bool :=
  match v with
  | .str t => t = s
  | _ => false

/-- `"_".join(p for p in parts if p)`: keep the truthy items, then join with
`_`; a truthy non-string item raises `TypeError`. -/
def pyJoinUnderscore (parts : List Json) : Except PyErr (List Char) :=
  let kept := parts.filter pyTruthy
  if kept.all fun v => match v with | .str _ => true | _ => false then
    .ok (List.intercalate ['_'] (kept.map fun v => match v with | .str s => s | _ => []))
  else .error .typeError

def findPlaceholdersGo : Nat → List Char → List (List Char)
  | _, [] => []
  | 0, _ => []
  | fuel + 1, c :: rest =>
    if c = lbrace then
      match rest.takeWhile (· ≠ rbrace), rest.dropWhile (· ≠ rbrace) with
      | [], _ => findPlaceholdersGo fuel rest
      | cap, _ :: after => cap :: findPlaceholdersGo fuel after
      | _, [] => []
    else findPlaceholdersGo fuel rest

/-- `re.findall(r'{([^}]+)}', template)`: scan left to right; at each `{`,
capture the non-empty run up to the next `}` and continue after it.  Each
step consumes at least one character, so length-fuelling keeps the
recursion structural. -/
def findPlaceholders (s : List Char) : List (List Char) :=
  findPlaceholdersGo s.length s

/-- Lines 20-35 of `core.py`: the field values selected for the join, with
the template path chosen exactly when the template argument is truthy. -/
def selectRuleParts (info : Json) : Except PyErr (List Json) :=
  match info with
  | .obj kvs =>
    let get := pyGet kvs
    let tipo := get (strL "type")
    .ok (if jsonIsStr tipo (strL "notes") then
          [get (strL "subject"), get (strL "year"), get (strL "author")]
        else if jsonIsStr tipo (strL "exam") then
          [get (strL "subject"), get (strL "date")]
        else if jsonIsStr tipo (strL "book") then
          [get (strL "title"), get (strL "author")]
        else if jsonIsStr tipo (strL "paper") then
          [get (strL "title"), get (strL "first_author"), get (strL "year")]
        else if jsonIsStr tipo (strL "other") then
          [get (strL "title"), get (strL "subject")]
        else
          [get (strL "title"), get (strL "subject")])
  | _ => .error .attributeError

/-- The values to join: placeholder lookups when a truthy template is given,
otherwise the type rule table. -/
def selectParts (info : Json) (template : Option (List Char)) :
    Except PyErr (List Json) :=
  match template with
  | some t =>
    if t.isEmpty then selectRuleParts info
    else (findPlaceholders t).mapM (jsonGet info)
  | none => selectRuleParts info

/-- `format_new_name(info, template)` (`core.py` lines 9-47): `.ok none`
models the `return None` for an empty join; otherwise the sanitized name is
returned (possibly the empty string — the caller re-checks truthiness). -/
def format_new_name (info : Json) (template : Option (List Char)) :
    Except PyErr (Option (List Char)) :=
  match selectParts info template with
  | .error e => .error e
  | .ok parts =>
    match pyJoinUnderscore parts with
    | .error e => .error e
    | .ok final_name =>
      if final_name.isEmpty then .ok none
      else .ok (some (sanitizeWith pyWordChar final_name))

/-!
## Paths (`pathlib.Path` as used by `core.py`)

The code only ever reads a path's parent (opaquely), splits the final
component into `stem`/`suffix`, and rebuilds a sibling with `with_name` or
`parent / name`; so a path is modelled as an opaque parent plus the final
component's characters.  `stem`/`suffix` follow CPython's rule: the suffix
is the part from the last dot of the name, provided that dot is neither the
first nor the last character. -/
structure Path where
  parent : String
  name : List Char
deriving DecidableEq, Repr

/-- Split at the last dot: `findLastDot s = some (pre, post)` with
`s = pre ++ '.' :: post` and no dot in `post`. -/
def findLastDot : List Char → Option (List Char × List Char)
  | [] => none
  | c :: rest =>
    match findLastDot rest with
    | some (pre, post) => some (c :: pre, post)
    | none => if c = '.' then some ([], rest) else none

/-- CPython's `(stem, suffix)` of a final path component. -/
def splitExt (name : List Char) : List Char × List Char :=
  match findLastDot name with
  | some (pre, post) =>
    if pre.isEmpty || post.isEmpty then (name, []) else (pre, '.' :: post)
  | none => (name, [])

/-- `path.stem`. -/
def Path.stem (p : Path) : List Char := (splitExt p.name).1

/-- `path.suffix`. -/
def Path.suffix (p : Path) : List Char := (splitExt p.name).2

/-- `path.with_name(n)` (the names the program builds are always valid). -/
def Path.withName (p : Path) (n : List Char) : Path := ⟨p.parent, n⟩

/-- `path.exists()` against an explicit snapshot of the existing paths. -/
def pathExists (fs : List Path) (p : Path) : Bool := fs.contains p

def natDigitsGo : Nat → Nat → List Char
  | 0, _ => []
  | fuel + 1, n =>
    if n < 10 then [Char.ofNat (48 + n)]
    else natDigitsGo fuel (n / 10) ++ [Char.ofNat (48 + n % 10)]

/-- Decimal digits of a natural number, as Python's `str` formats the
counter in `f"{stem}_{counter}"`.  Fuelled structurally; `n + 1` steps
always suffice since the argument at least halves each step. -/
def natDigits (n : Nat) : List Char := natDigitsGo (n + 1) n

/-- The candidate `parent / f"{stem}_{counter}{suffix}"` built by
`get_unique_path`'s loop. -/
def uniqueCandidate (parent : String) (stem suffix : List Char) (counter : Nat) :
    Path :=
  ⟨parent, stem ++ '_' :: natDigits counter ++ suffix⟩

/-- The `while True` loop of `get_unique_path` (`core.py` lines 57-64),
fuelled: the pigeonhole lemma below shows the fuel supplied by
`get_unique_path` is never exhausted, so the fuel-out branch (which returns
the current candidate) is unreachable. -/
def getUniqueLoop (fs : List Path) (parent : String) (stem suffix : List Char) :
    Nat → Nat → Path
  | counter, 0 => uniqueCandidate parent stem suffix counter
  | counter, fuel + 1 =>
    let cand := uniqueCandidate parent stem suffix counter
    if pathExists fs cand then
      getUniqueLoop fs parent stem suffix (counter + 1) fuel
    else cand

/-- `get_unique_path` (`core.py` lines 49-64) against a fixed snapshot. -/
def get_unique_path (fs : List Path) (path : Path) : Path :=
  if pathExists fs path then
    getUniqueLoop fs path.parent path.stem path.suffix 1 (fs.length + 1)
  else path

/-!
## `process_and_rename_file` (`core.py` lines 66-127)

External effects become explicit inputs: the analyzer's raw response text
(`None` on an analysis failure — both analyzer classes catch their own
errors and return `(None, 0)`), the filesystem snapshot consulted by the
`.exists()` calls, and the outcome of the final `rename` system call.
The analyzer dispatch on the sniffed MIME type selects objects whose
`parse_gemini_response` bodies are identical, so it does not appear.
Python exceptions escaping the function body are the `.error` results: the
only statements outside a `try` that can raise in reach are the attribute
and join errors of `format_new_name`.  The token-counter increment touches
nothing the outcome depends on and is omitted. -/

/-- Result of the guarded `filepath.rename(new_filepath)` call. -/
inductive RenameRes where
  | ok
  | osError (msg : List Char)
  | unknownError (msg : List Char)
deriving DecidableEq

mutual

/-- Rough Python `repr` of a parsed JSON value, used only inside the
"Could not generate a valid name" message (no claim inspects it; the
spelling of numbers is approximated). -/
def pyReprJson : Json → List Char
  | .null => strL "None"
  | .bool true => strL "True"
  | .bool false => strL "False"
  | .nan => strL "nan"
  | .inf => strL "inf"
  | .ninf => strL "-inf"
  | .num m e => strL (toString m) ++ (if e = 0 then [] else 'e' :: strL (toString e))
  | .str s => squote :: s ++ [squote]
  | .arr xs => '[' :: pyReprList xs ++ [']']
  | .obj kvs => lbrace :: pyReprFields kvs ++ [rbrace]

/-- Comma-joined `repr`s of a list's elements. -/
def pyReprList : List Json → List Char
  | [] => []
  | [x] => pyReprJson x
  | x :: y :: rest => pyReprJson x ++ strL ", " ++ pyReprList (y :: rest)

/-- Comma-joined `repr`s of a dict's entries. -/
def pyReprFields : List (List Char × Json) → List Char
  | [] => []
  | [p] => squote :: p.1 ++ squote :: ':' :: ' ' :: pyReprJson p.2
  | p :: q :: rest =>
    squote :: p.1 ++ squote :: ':' :: ' ' :: pyReprJson p.2 ++ strL ", " ++
      pyReprFields (q :: rest)

end

/-- The outcome tuple `(original_path, new_path, status_message)`. -/
abbrev Outcome := Path × Option Path × List Char

/-- `process_and_rename_file`.  An `.ok` result is the returned tuple; an
`.error` result is an exception raised to the caller. -/
def process_and_rename_file (filepath : Path) (raw_response : Option (List Char))
    (dry_run : Bool) (on_conflict : List Char) (template : Option (List Char))
    (fs : List Path) (renameRes : RenameRes) : Except PyErr Outcome :=
  match raw_response with
  | none => .ok (filepath, none, strL "Gemini API call failed")
  | some raw =>
    if raw.isEmpty then .ok (filepath, none, strL "Gemini API call failed")
    else
      let info := (parse_gemini_response raw).1
      if ¬pyTruthy info then
        .ok (filepath, none, strL "Failed to parse Gemini JSON response")
      else
        match format_new_name info template with
        | .error e => .error e
        | .ok new_base_name =>
          match new_base_name with
          | none =>
            .ok (filepath, none,
              strL "Could not generate a valid name from info: " ++ pyReprJson info)
          | some nb =>
            if nb.isEmpty then
              .ok (filepath, none,
                strL "Could not generate a valid name from info: " ++ pyReprJson info)
            else
              let file_extension := filepath.suffix
              let new_filename := nb ++ file_extension
              let new_filepath := filepath.withName new_filename
              if filepath = new_filepath then
                .ok (filepath, some new_filepath, strL "skipped")
              else if pathExists fs new_filepath ∧ on_conflict = strL "skip" then
                .ok (filepath, some new_filepath, strL "conflict_skipped")
              else
                let new_filepath :=
                  if pathExists fs new_filepath ∧ on_conflict = strL "rename" then
                    get_unique_path fs new_filepath
                  else new_filepath
                if dry_run then
                  .ok (filepath, some new_filepath, strL "dry_run_success")
                else
                  match renameRes with
                  | .ok => .ok (filepath, some new_filepath, strL "success")
                  | .osError m =>
                    .ok (filepath, some new_filepath, strL "OS error renaming: " ++ m)
                  | .unknownError m =>
                    .ok (filepath, some new_filepath, strL "Unknown error renaming: " ++ m)

/-!
## `DocumentAnalyzer.analyze` (`analyzers.py` lines 96-133): the request

What matters to the page-cap claim is the request handed to
`client.models.generate_content`: its `contents` list.  The prompt built by
`_build_document_prompt` enters as an opaque input; the body of the file as
the byte list `read_bytes` returned (`none` models a read failure). -/

/-- One element of the `contents` list sent to the service. -/
inductive ReqPart where
  | fromBytes (data : List Nat) (mimeType : List Char)
  | fromText (text : List Char)
deriving DecidableEq

/-- The line appended to the prompt when a positive page cap is given:
`f"\nAnalyze only the first {max_pages} pages of the document."`. -/
def maxPagesInstruction (n : Int) : List Char :=
  strL "\nAnalyze only the first " ++ strL (toString n) ++
    strL " pages of the document."

/-- The `contents` that `DocumentAnalyzer.analyze` sends: `none` when the
file does not exist or reading it raised (both return before any request);
otherwise always the raw file bytes followed by the prompt, with the page
cap present only as the instruction line appended to the prompt. -/
def documentAnalyzeContents (fileExists : Bool) (read_bytes : Option (List Nat))
    (mime_type : List Char) (prompt : List Char) (max_pages : Option Int) :
    Option (List ReqPart) :=
  if ¬fileExists then none
  else
    match read_bytes with
    | none => none
    | some file_data =>
      let prompt :=
        match max_pages with
        | some n => if n > 0 then prompt ++ maxPagesInstruction n else prompt
        | none => prompt
      some [.fromBytes file_data mime_type, .fromText prompt]

/-!
## The orchestrator (`cli.py` `main`)

Only the two aggregate computations the claims are about are embedded: the
worker-pool size and the process exit code.  Argument-validation exits
(`parser.error`) and the `KeyboardInterrupt` path happen before or instead
of these computations and are outside them. -/

/-- `desired_workers` (`cli.py` lines 227-229): the requested job count when
given and positive, else `os.cpu_count()`, else the fallback 4. -/
def desiredWorkers (jobs : Option Int) (cpuCount : Option Nat) : Nat :=
  match jobs with
  | some j => if j > 0 then j.toNat else cpuCount.getD 4
  | none => cpuCount.getD 4

/-- `num_workers` as the executor receives it: 1 in the non-recursive
single-file branch, else `min(desired_workers, len(files_to_process))`
(`cli.py` lines 210-233). -/
def numWorkers (recursive : Bool) (jobs : Option Int) (cpuCount : Option Nat)
    (numFiles : Nat) : Nat :=
  if ¬recursive then 1
  else min (desiredWorkers jobs cpuCount) numFiles

/-- A status string the summary loop counts as a failure: anything other
than the four recognised success/skip statuses (`cli.py` lines 272-293). -/
def isFailureStatus (status : List Char) : Bool :=
  ¬(status = strL "success" || status = strL "dry_run_success" ||
    status = strL "skipped" || status = strL "conflict_skipped")

/-- `error_count` after the reporting loop: the loop that tallies statuses
runs under `if not args.quiet:`, so with `--quiet` nothing is ever
counted (`cli.py` lines 270-293). -/
def errorCount (quiet : Bool) (results : List Outcome) : Nat :=
  if quiet then 0
  else (results.filter fun r => isFailureStatus r.2.2).length

/-- The process exit code of a run that reaches file processing (or the
empty-discovery early exit) and is not interrupted: `sys.exit(0)` on empty
batch discovery (line 219), `sys.exit(1)` iff `error_count > 0` at the end
(lines 303-304), else the normal return (exit 0). -/
def mainExitCode (recursive : Bool) (files : List Path) (results : List Outcome)
    (quiet : Bool) : Nat :=
  if recursive ∧ files.isEmpty then 0
  else if errorCount quiet results > 0 then 1
  else 0

/-!
## Definitions taken from the specification's wording

Used on the specification side of refinement statements; each follows the
words of its claim, not the source. -/

/-- The value of the `type` field when it is a string, per the claim's
"unrecognized" reading: anything that is not one of the five type strings
falls to the default row. -/
def typeString (kvs : List (List Char × Json)) : Option (List Char) :=
  match pyGet kvs (strL "type") with
  | .str s => some s
  | _ => none

/-- The rule table of claim C5: fields selected per document type, in
order. -/
def claimRuleFields (tipo : Option (List Char)) : List (List Char) :=
  match tipo with
  | some s =>
    if s = strL "notes" then [strL "subject", strL "year", strL "author"]
    else if s = strL "exam" then [strL "subject", strL "date"]
    else if s = strL "book" then [strL "title", strL "author"]
    else if s = strL "paper" then [strL "title", strL "first_author", strL "year"]
    else [strL "title", strL "subject"]
  | none => [strL "title", strL "subject"]

/-- Claim C5's join: look the selected fields up, omit null or missing or
empty values entirely, and join the remaining strings with `_`. -/
def claimJoinedName (kvs : List (List Char × Json)) : List Char :=
  List.intercalate ['_']
    ((claimRuleFields (typeString kvs)).filterMap fun f =>
      match pyGet kvs f with
      | .str s => if s.isEmpty then none else some s
      | _ => none)

/-- Two adjacent characters are not both collapsible: the shape invariant
of `collapseRuns` output. -/
def notBothColl (a b : Char) : Prop :=
  ¬(isCollapsible a = true ∧ isCollapsible b = true)

/-- Decimal decoding; the left inverse of `natDigits` that yields its
injectivity. -/
def decodeDigits (ds : List Char) : Nat :=
  ds.foldl (fun a c => a * 10 + (c.toNat - 48)) 0

end Srn

namespace Srn

/-!
# Supporting lemmas: sanitization -/

/-- A list whose head does not satisfy `p` is unchanged by `dropWhile`. -/
theorem dropWhile_eq_self_of_head {p : Char → Bool} {l : List Char}
    (h : ∀ x, l.head? = some x → p x = false) : l.dropWhile p = l := by
  cases l with
  | nil => rfl
  | cons a t =>
    have := h a rfl
    simp [List.dropWhile_cons, this]

/-- The head surviving a `dropWhile` fails the predicate. -/
theorem head?_dropWhile_false (p : Char → Bool) (l : List Char) :
    ∀ x, (l.dropWhile p).head? = some x → p x = false := by
  intro x hx
  have h := List.head?_dropWhile_not p l
  rw [hx] at h
  exact h

/-- `dropWhile` is idempotent. -/
theorem dropWhile_dropWhile (p : Char → Bool) (l : List Char) :
    (l.dropWhile p).dropWhile p = l.dropWhile p :=
  dropWhile_eq_self_of_head (head?_dropWhile_false p l)

/-- `strip('_')` output is a contiguous slice of its input. -/
theorem stripUnderscores_slice (l : List Char) :
    stripUnderscores l <:+: l := by
  have h1 : l.dropWhile (· = '_') <:+ l := List.dropWhile_suffix _
  have h2 : (l.dropWhile (· = '_')).reverse.dropWhile (· = '_') <:+
      (l.dropWhile (· = '_')).reverse := List.dropWhile_suffix _
  have h3 : ((l.dropWhile (· = '_')).reverse.dropWhile (· = '_')).reverse <+:
      l.dropWhile (· = '_') := List.reverse_suffix.mp (by simpa using h2)
  exact h3.isInfix.trans h1.isInfix

/-- Members of the stripped list are members of the input. -/
theorem mem_stripUnderscores {c : Char} {l : List Char}
    (h : c ∈ stripUnderscores l) : c ∈ l :=
  (stripUnderscores_slice l).subset h

/-- A nonempty suffix keeps the last element. -/
theorem getLast?_of_suffix {l t : List Char} (h : t <:+ l) (hne : t ≠ []) :
    t.getLast? = l.getLast? := by
  obtain ⟨u, rfl⟩ := h
  exact (List.getLast?_append_of_ne_nil u hne).symm

/-- A reversed list with no leading-underscore tail and no underscore
prefix left to drop is a `strip('_')` fixpoint. -/
theorem stripUnderscores_reverse_fix (B : List Char)
    (hlast : ∀ x, B.getLast? = some x → (x = '_' : Bool) = false)
    (hdrop : B.dropWhile (· = '_') = B) :
    stripUnderscores B.reverse = B.reverse := by
  have hstep1 : B.reverse.dropWhile (· = '_') = B.reverse := by
    refine dropWhile_eq_self_of_head ?_
    intro x hx
    exact hlast x (by rwa [List.head?_reverse] at hx)
  show ((B.reverse.dropWhile (· = '_')).reverse.dropWhile (· = '_')).reverse
      = B.reverse
  rw [hstep1, List.reverse_reverse, hdrop]

/-- `strip('_')` is idempotent. -/
theorem stripUnderscores_idem (l : List Char) :
    stripUnderscores (stripUnderscores l) = stripUnderscores l := by
  have hy : stripUnderscores l =
      ((l.dropWhile (· = '_')).reverse.dropWhile (· = '_')).reverse := rfl
  rw [hy]
  refine stripUnderscores_reverse_fix _ ?_ (dropWhile_dropWhile _ _)
  intro x hx
  have hne : (l.dropWhile (· = '_')).reverse.dropWhile (· = '_') ≠ [] := by
    intro h
    rw [h] at hx
    cases hx
  rw [getLast?_of_suffix (List.dropWhile_suffix _) hne,
    List.getLast?_reverse] at hx
  exact head?_dropWhile_false _ l x hx

/-- Every head of a `collapseRuns` result: the underscore for a collapsible
head, the head itself otherwise. -/
theorem collapseRuns_head :
    ∀ (rest : List Char) (d : Char), ∃ t,
      collapseRuns (d :: rest) = (if isCollapsible d then '_' else d) :: t := by
  intro rest
  induction rest with
  | nil =>
    intro d
    by_cases h : isCollapsible d
    · exact ⟨[], by simp [collapseRuns, h]⟩
    · exact ⟨[], by simp [collapseRuns, h]⟩
  | cons e r ih =>
    intro d
    by_cases hd : isCollapsible d
    · by_cases he : isCollapsible e
      · obtain ⟨t, ht⟩ := ih e
        exact ⟨t, by simp [collapseRuns, hd, he, ht]⟩
      · exact ⟨collapseRuns (e :: r), by simp [collapseRuns, hd, he]⟩
    · exact ⟨collapseRuns (e :: r), by simp [collapseRuns, hd]⟩

/-- A member of a `collapseRuns` result is the underscore or a
non-collapsible member of the input. -/
theorem mem_collapseRuns :
    ∀ (l : List Char) (c : Char), c ∈ collapseRuns l →
      c = '_' ∨ (c ∈ l ∧ isCollapsible c = false) := by
  intro l
  induction l with
  | nil => intro c hc; simp [collapseRuns] at hc
  | cons a tail ih =>
    intro c hc
    cases tail with
    | nil =>
      by_cases h : isCollapsible a
      · simp [collapseRuns, h] at hc
        exact Or.inl hc
      · simp [collapseRuns, h] at hc
        exact Or.inr ⟨by simp [hc], by rw [hc]; exact Bool.eq_false_iff.mpr h⟩
    | cons d rest =>
      by_cases ha : isCollapsible a
      · by_cases hd : isCollapsible d
        · rw [show collapseRuns (a :: d :: rest) = collapseRuns (d :: rest) by
            simp [collapseRuns, ha, hd]] at hc
          rcases ih c hc with h | ⟨hm, hcol⟩
          · exact Or.inl h
          · exact Or.inr ⟨List.mem_cons_of_mem a hm, hcol⟩
        · rw [show collapseRuns (a :: d :: rest) = '_' :: collapseRuns (d :: rest) by
            simp [collapseRuns, ha, hd]] at hc
          rcases List.mem_cons.mp hc with h | h
          · exact Or.inl h
          · rcases ih c h with h' | ⟨hm, hcol⟩
            · exact Or.inl h'
            · exact Or.inr ⟨List.mem_cons_of_mem a hm, hcol⟩
      · rw [show collapseRuns (a :: d :: rest) = a :: collapseRuns (d :: rest) by
          simp [collapseRuns, ha]] at hc
        rcases List.mem_cons.mp hc with h | h
        · subst h
          exact Or.inr ⟨List.mem_cons_self c _, by simpa using ha⟩
        · rcases ih c h with h' | ⟨hm, hcol⟩
          · exact Or.inl h'
          · exact Or.inr ⟨List.mem_cons_of_mem a hm, hcol⟩

/-- `collapseRuns` output never has two adjacent collapsible characters. -/
theorem chain'_collapseRuns :
    ∀ l : List Char, List.Chain' notBothColl (collapseRuns l) := by
  intro l
  induction l with
  | nil => simp [collapseRuns]
  | cons a tail ih =>
    cases tail with
    | nil =>
      by_cases h : isCollapsible a <;> simp [collapseRuns, h]
    | cons d rest =>
      by_cases ha : isCollapsible a
      · by_cases hd : isCollapsible d
        · rwa [show collapseRuns (a :: d :: rest) = collapseRuns (d :: rest) by
            simp [collapseRuns, ha, hd]]
        · rw [show collapseRuns (a :: d :: rest) = '_' :: collapseRuns (d :: rest) by
            simp [collapseRuns, ha, hd]]
          obtain ⟨t, ht⟩ := collapseRuns_head rest d
          rw [ht] at ih ⊢
          rw [if_neg hd] at ih ⊢
          exact List.chain'_cons.mpr ⟨fun hb => hd (by simpa using hb.2), ih⟩
      · rw [show collapseRuns (a :: d :: rest) = a :: collapseRuns (d :: rest) by
          simp [collapseRuns, ha]]
        obtain ⟨t, ht⟩ := collapseRuns_head rest d
        rw [ht] at ih ⊢
        exact List.chain'_cons.mpr ⟨fun hb => ha hb.1, ih⟩

/-- A list with no adjacent collapsible pair, whose collapsible members are
all the underscore, is a `collapseRuns` fixpoint. -/
theorem collapseRuns_eq_self :
    ∀ l : List Char, List.Chain' notBothColl l →
      (∀ c ∈ l, isCollapsible c = true → c = '_') → collapseRuns l = l := by
  intro l
  induction l with
  | nil => intro _ _; rfl
  | cons a tail ih =>
    intro hch hall
    cases tail with
    | nil =>
      by_cases h : isCollapsible a
      · have := hall a (List.mem_cons_self _ _) h
        simp [collapseRuns, h, this]
      · simp [collapseRuns, h]
    | cons d rest =>
      have hch' := List.chain'_cons.mp hch
      have hrec : collapseRuns (d :: rest) = d :: rest :=
        ih hch'.2 fun c hc h => hall c (List.mem_cons_of_mem a hc) h
      by_cases ha : isCollapsible a
      · have hnd : ¬isCollapsible d = true := fun hd => hch'.1 ⟨ha, hd⟩
        have ha' : a = '_' := hall a (List.mem_cons_self _ _) ha
        rw [show collapseRuns (a :: d :: rest) = '_' :: collapseRuns (d :: rest) by
          simp [collapseRuns, ha, hnd], hrec, ha']
      · rw [show collapseRuns (a :: d :: rest) = a :: collapseRuns (d :: rest) by
          simp [collapseRuns, ha], hrec]

/-- Characters of a sanitized string: never a space, always kept by the
filter, and collapsible only as the underscore. -/
theorem mem_sanitizeWith (W : Char → Bool) (s : List Char) (c : Char)
    (hc : c ∈ sanitizeWith W s) :
    c ≠ ' ' ∧ (W c || c = '-' || c = '_' || c = '.') = true ∧
      (isCollapsible c = true → c = '_') := by
  have hc1 : c ∈ collapseRuns
      ((s.map fun c => if c = ' ' then '_' else c).filter
        fun c => W c || c = '-' || c = '_' || c = '.') := mem_stripUnderscores hc
  rcases mem_collapseRuns _ c hc1 with h | ⟨hmem, hcol⟩
  · subst h
    exact ⟨by decide, by simp, fun _ => rfl⟩
  · have hkeep := (List.mem_filter.mp hmem).2
    have hmap := (List.mem_filter.mp hmem).1
    obtain ⟨d, _, hd⟩ := List.mem_map.mp hmap
    constructor
    · intro hsp
      subst hsp
      by_cases h : d = ' '
      · rw [if_pos h] at hd
        exact absurd hd (by decide)
      · rw [if_neg h] at hd
        exact h hd
    · exact ⟨hkeep, fun h => absurd h (by simp [hcol])⟩

/-- The sanitization of `format_new_name` is idempotent, for every
per-character word class `W`. -/
theorem sanitizeWith_idem (W : Char → Bool) (s : List Char) :
    sanitizeWith W (sanitizeWith W s) = sanitizeWith W s := by
  have hmem := mem_sanitizeWith W s
  have hmap : (sanitizeWith W s).map (fun c => if c = ' ' then '_' else c)
      = sanitizeWith W s := by
    rw [List.map_congr_left fun c hc => if_neg (hmem c hc).1, List.map_id']
  have hfil : (sanitizeWith W s).filter
      (fun c => W c || c = '-' || c = '_' || c = '.') = sanitizeWith W s := by
    rw [List.filter_eq_self]
    intro c hc
    exact (hmem c hc).2.1
  have hchain : List.Chain' notBothColl (sanitizeWith W s) :=
    List.Chain'.infix (chain'_collapseRuns _) (stripUnderscores_slice _)
  have hcoll : collapseRuns (sanitizeWith W s) = sanitizeWith W s :=
    collapseRuns_eq_self _ hchain fun c hc => (hmem c hc).2.2
  show stripUnderscores (collapseRuns (((sanitizeWith W s).map _).filter _))
      = sanitizeWith W s
  rw [hmap, hfil, hcoll]
  exact stripUnderscores_idem _

/-!
## C7 — sanitization is idempotent

Confirmed, and with no assumption on the word-character class beyond its
being a per-character test (so the ASCII modelling of `\w` plays no role
in the argument). -/

/-- C7: applying the name sanitization twice equals applying it once. -/
theorem sanitize_idempotent (x : List Char) :
    sanitize (sanitize x) = sanitize x :=
  sanitizeWith_idem pyWordChar x

/-!
# Theorems

## C1 — every per-file error is caught inside `process_and_rename_file`

The claim fails on the code: the parse step accepts any truthy JSON
document, and `format_new_name` then calls `.get` on it, so a valid
non-object response such as `"1"` raises an uncaught `AttributeError` out
of the worker; `cli.py` catches only `KeyboardInterrupt` around
`executor.map`, so the exception terminates the whole batch. -/

/-- C1 (code bug witness): on the analyzer response text `1` — valid,
truthy JSON — `process_and_rename_file` raises `AttributeError` to its
caller instead of returning an outcome tuple. -/
theorem process_and_rename_file_raises_on_nonobject_json :
    process_and_rename_file ⟨"d", strL "f.pdf"⟩ (some (strL "1")) false
      (strL "skip") none [] .ok = .error .attributeError := rfl

/-!
## C2 — page cap sends extracted page text instead of raw bytes

The claim fails on the code: `DocumentAnalyzer.analyze` always sends the
raw file bytes; a positive `max_pages` only appends an instruction line to
the prompt.  (The previous module generation, `llmtitle/gemini.py`, did
extract the first pages' text and send it instead — the behaviour the
specification and `tests/test_gemini.py` describe — and `srn/analyzers.py`
still carries its now-unused `PdfReader` import.) -/

/-- C2 (code bug witness): with any positive page cap the request still
carries the raw bytes part, and the cap survives only as a prompt line. -/
theorem documentAnalyzer_page_cap_sends_raw_bytes (data : List Nat)
    (mime prompt : List Char) (n : Int) (hn : 0 < n) :
    documentAnalyzeContents true (some data) mime prompt (some n) =
      some [.fromBytes data mime, .fromText (prompt ++ maxPagesInstruction n)] := by
  simp [documentAnalyzeContents, hn]

/-- Witness for `documentAnalyzer_page_cap_sends_raw_bytes` at a concrete
PDF byte string and cap 3. -/
theorem documentAnalyzer_page_cap_sends_raw_bytes_witness :
    documentAnalyzeContents true (some [37, 80, 68, 70]) (strL "application/pdf")
        (strL "P") (some 3) =
      some [.fromBytes [37, 80, 68, 70] (strL "application/pdf"),
        .fromText (strL "P" ++ maxPagesInstruction 3)] :=
  documentAnalyzer_page_cap_sends_raw_bytes [37, 80, 68, 70]
    (strL "application/pdf") (strL "P") 3 (by decide)

/-!
## C3 — exit code

The claim fails on the code in its empty-discovery half: batch discovery
of zero files prints a message and calls `sys.exit(0)`, not 1 (and §8 of
the specification itself records exactly this zero-exit behaviour).  A
second divergence qualifies the failure half: statuses are tallied inside
`if not args.quiet:`, so with `--quiet` the exit code is 0 even when files
failed. -/

/-- C3 counterexample: in batch mode with no files discovered the process
exits 0, where the claim requires 1. -/
theorem mainExitCode_empty_discovery_zero :
    mainExitCode true [] [] false = 0 := rfl

/-- C3 (amended): empty batch discovery exits 0; quiet runs always exit 0
because nothing is tallied; otherwise the exit code is 1 exactly when some
outcome has a failure status, and it is always 0 or 1. -/
theorem mainExitCode_spec (recursive : Bool) (files : List Path)
    (results : List Outcome) (quiet : Bool) :
    (recursive = true → files = [] →
      mainExitCode recursive files results quiet = 0)
    ∧ (quiet = true → mainExitCode recursive files results quiet = 0)
    ∧ (quiet = false → ¬(recursive = true ∧ files = []) →
        (mainExitCode recursive files results quiet = 1 ↔
          ∃ r ∈ results, isFailureStatus r.2.2))
    ∧ (mainExitCode recursive files results quiet = 0 ∨
        mainExitCode recursive files results quiet = 1) := by
  refine ⟨?_, ?_, ?_, ?_⟩
  · intro hr hf
    simp [mainExitCode, hr, hf]
  · intro hq
    simp only [mainExitCode, errorCount, hq]
    split
    · rfl
    · simp
  · intro hq hne
    have hcond : ¬(recursive ∧ files.isEmpty) := by
      intro hb
      exact hne ⟨hb.1, List.isEmpty_iff.mp hb.2⟩
    simp only [mainExitCode, errorCount, hq, if_neg hcond, Bool.false_eq_true,
      if_false]
    constructor
    · intro h1
      rcases Nat.eq_zero_or_pos (results.filter fun r => isFailureStatus r.2.2).length
        with hz | hp
      · rw [hz] at h1
        simp at h1
      · rcases List.exists_mem_of_ne_nil _ (List.length_pos.mp hp) with ⟨r, hr⟩
        have hmf := List.mem_filter.mp hr
        exact ⟨r, hmf.1, hmf.2⟩
    · rintro ⟨r, hr, hst⟩
      have hmem : r ∈ results.filter fun r => isFailureStatus r.2.2 :=
        List.mem_filter.mpr ⟨hr, hst⟩
      have hpos : 0 < (results.filter fun r => isFailureStatus r.2.2).length :=
        List.length_pos.mpr (List.ne_nil_of_mem hmem)
      simp [hpos]
  · simp only [mainExitCode]
    split
    · exact Or.inl rfl
    · split
      · exact Or.inr rfl
      · exact Or.inl rfl

/-- Witness for `mainExitCode_spec`: a verbose batch run over one file with
one failed outcome exits 1. -/
theorem mainExitCode_spec_witness :
    mainExitCode true [⟨"d", strL "f.pdf"⟩]
      [(⟨"d", strL "f.pdf"⟩, none, strL "Gemini API call failed")] false = 1 :=
  ((mainExitCode_spec true [⟨"d", strL "f.pdf"⟩]
    [(⟨"d", strL "f.pdf"⟩, none, strL "Gemini API call failed")] false).2.2.1
    rfl (by simp)).mpr
    ⟨(⟨"d", strL "f.pdf"⟩, none, strL "Gemini API call failed"),
      by simp, by decide⟩

/-- The empty response cleans to the empty text. -/
theorem cleanText_nil : cleanText [] = [] := rfl

/-- Nothing parses from the empty text. -/
theorem json_loads_nil : json_loads [] = none := rfl

/-!
## C4 — when `parse_gemini_response` fails

The claim's "fails exactly when empty-after-cleaning or invalid JSON" is
refuted by the valid JSON document `null`: `json.loads` maps it to `None`,
which the function returns — indistinguishable from its failure returns.
The amended statement adds that third case, and weakens "yields the parsed
JSON object" to the parsed JSON value (a document like `[1]` is accepted
and returned as-is). -/

/-- C4 counterexample: the response text `null` is non-empty after cleaning
and is valid JSON, yet `parse_gemini_response` returns the absent value. -/
theorem parse_gemini_response_null_refutes :
    cleanText (strL "null") ≠ [] ∧
    json_loads (cleanText (strL "null")) = some .null ∧
    (parse_gemini_response (strL "null")).1 = .null ∧
    (parse_gemini_response (strL "null")).2 = [] :=
  ⟨by decide, rfl, rfl, rfl⟩

/-- C4 (amended): the absent result happens exactly on empty-after-cleaning
text, invalid JSON, or the JSON document `null`; an invalid-JSON failure
logs the original raw text; any other parsed value is returned as-is. -/
theorem parse_gemini_response_spec (raw : List Char) :
    ((parse_gemini_response raw).1 = .null ↔
      cleanText raw = [] ∨ json_loads (cleanText raw) = none ∨
        json_loads (cleanText raw) = some .null)
    ∧ (cleanText raw ≠ [] → json_loads (cleanText raw) = none →
        (parse_gemini_response raw).2 = [.invalidJson raw])
    ∧ (∀ v, json_loads (cleanText raw) = some v →
        (parse_gemini_response raw).1 = v) := by
  by_cases hraw : raw.isEmpty
  · have hr : raw = [] := List.isEmpty_iff.mp hraw
    subst hr
    refine ⟨by simp [parse_gemini_response, cleanText_nil], ?_, ?_⟩
    · intro hne
      exact absurd cleanText_nil hne
    · intro v hv
      rw [cleanText_nil, json_loads_nil] at hv
      cases hv
  · by_cases hclean : (cleanText raw).isEmpty
    · have hc : cleanText raw = [] := List.isEmpty_iff.mp hclean
      refine ⟨?_, ?_, ?_⟩
      · simp only [parse_gemini_response, hraw, if_false, hclean, if_true,
          Bool.false_eq_true]
        simp [hc]
      · intro hne
        exact absurd hc hne
      · intro v hv
        rw [hc, json_loads_nil] at hv
        cases hv
    · have hc : cleanText raw ≠ [] := fun h => hclean (List.isEmpty_iff.mpr h)
      match hload : json_loads (cleanText raw) with
      | some data =>
        refine ⟨?_, ?_, ?_⟩
        · simp only [parse_gemini_response, hraw, Bool.false_eq_true, if_false,
            hclean, hload]
          constructor
          · intro h
            exact Or.inr (Or.inr (by rw [h]))
          · rintro (h | h | h)
            · exact absurd h hc
            · exact Option.noConfusion h
            · exact Option.some.inj h
        · intro _ hnone
          exact Option.noConfusion hnone
        · intro v hv
          obtain rfl := Option.some.inj hv
          simp [parse_gemini_response, hraw, hclean, hload]
      | none =>
        refine ⟨?_, ?_, ?_⟩
        · simp [parse_gemini_response, hraw, hclean, hload]
        · intro _ _
          simp [parse_gemini_response, hraw, hclean, hload]
        · intro v hv
          exact Option.noConfusion hv

/-- Witness for `parse_gemini_response_spec`: the invalid response `xx`
logs the raw text, and `\x7b\x7d` parses through to the empty object. -/
theorem parse_gemini_response_spec_witness :
    (parse_gemini_response (strL "xx")).2 = [.invalidJson (strL "xx")] ∧
    (parse_gemini_response (strL "\x7b\x7d")).1 = .obj [] :=
  ⟨(parse_gemini_response_spec (strL "xx")).2.1 (by decide) rfl,
    (parse_gemini_response_spec (strL "\x7b\x7d")).2.2 (.obj []) rfl⟩

/-!
## C9 — falsy parses are reported as the parse failure

Confirmed: `core.py` line 94 tests the parse result with `if not info:`,
so every falsy parsed document — `{}`, `[]`, `""`, `0`, `false`, `null` —
takes the `"Failed to parse Gemini JSON response"` return. -/

/-- C9: whenever the cleaned response parses to a falsy JSON value, the
worker returns the parse-failure outcome, with no new path. -/
theorem process_reports_parse_failure_on_falsy_json (filepath : Path)
    (raw : List Char) (dry_run : Bool) (on_conflict : List Char)
    (template : Option (List Char)) (fs : List Path) (renameRes : RenameRes)
    (v : Json) (hv : json_loads (cleanText raw) = some v)
    (hf : pyTruthy v = false) :
    process_and_rename_file filepath (some raw) dry_run on_conflict template
      fs renameRes =
      .ok (filepath, none, strL "Failed to parse Gemini JSON response") := by
  have hraw : raw.isEmpty = false := by
    rcases raw with _ | _
    · rw [cleanText_nil, json_loads_nil] at hv
      cases hv
    · rfl
  have hclean : (cleanText raw).isEmpty = false := by
    rcases hcl : cleanText raw with _ | _
    · rw [hcl, json_loads_nil] at hv
      cases hv
    · rfl
  have hinfo : (parse_gemini_response raw).1 = v := by
    simp [parse_gemini_response, hraw, hclean, hv]
  simp [process_and_rename_file, hraw, hinfo, hf]

/-- Witness for `process_reports_parse_failure_on_falsy_json`: the valid
empty JSON object is reported as a parse failure, not a naming failure. -/
theorem process_reports_parse_failure_on_falsy_json_witness :
    process_and_rename_file ⟨"d", strL "f.pdf"⟩ (some (strL "\x7b\x7d")) false
      (strL "skip") none [] .ok =
      .ok (⟨"d", strL "f.pdf"⟩, none, strL "Failed to parse Gemini JSON response") :=
  process_reports_parse_failure_on_falsy_json ⟨"d", strL "f.pdf"⟩
    (strL "\x7b\x7d") false (strL "skip") none [] .ok (.obj []) rfl rfl

/-- Looking a key up in a mapping whose values are strings-or-null yields a
string or null. -/
theorem pyGet_shape (kvs : List (List Char × Json))
    (h : ∀ p ∈ kvs, p.2 = .null ∨ ∃ s, p.2 = .str s) (key : List Char) :
    pyGet kvs key = .null ∨ ∃ s, pyGet kvs key = .str s := by
  unfold pyGet
  cases hf : kvs.reverse.find? (fun p => p.1 = key) with
  | none => exact Or.inl rfl
  | some p =>
    have hmem : p ∈ kvs.reverse := List.mem_of_find?_eq_some hf
    exact h p (List.mem_reverse.mp hmem)

/-- Joining looked-up string-or-null parts: the truthiness filter keeps
exactly the non-null non-empty strings, in order, and the join succeeds. -/
theorem pyJoin_lookup_eq (kvs : List (List Char × Json))
    (h : ∀ p ∈ kvs, p.2 = .null ∨ ∃ s, p.2 = .str s)
    (fields : List (List Char)) :
    pyJoinUnderscore (fields.map (pyGet kvs)) =
      .ok (List.intercalate ['_'] (fields.filterMap fun f =>
        match pyGet kvs f with
        | .str s => if s.isEmpty then none else some s
        | _ => none)) := by
  have hsel : (fields.map (pyGet kvs)).filter pyTruthy =
      (fields.filterMap fun f =>
        match pyGet kvs f with
        | .str s => if s.isEmpty then none else some s
        | _ => none).map .str := by
    induction fields with
    | nil => rfl
    | cons f rest ih =>
      rcases pyGet_shape kvs h f with hf | ⟨s, hf⟩
      · simp [hf, pyTruthy, ih, List.filterMap_cons]
      · by_cases hse : s.isEmpty
        · have hse' : s = [] := List.isEmpty_iff.mp hse
          subst hse'
          simp [hf, pyTruthy, ih, List.filterMap_cons]
        · have hse' : ¬s = [] := fun h' => hse (by simp [h'])
          simp [hf, pyTruthy, hse, hse', ih, List.filterMap_cons]
  unfold pyJoinUnderscore
  rw [hsel]
  have hall : ((fields.filterMap fun f =>
      match pyGet kvs f with
      | .str s => if s.isEmpty then none else some s
      | _ => none).map Json.str).all
        (fun v => match v with | .str _ => true | _ => false) = true := by
    rw [List.all_eq_true]
    intro v hv
    obtain ⟨s, _, rfl⟩ := List.mem_map.mp hv
    rfl
  rw [if_pos hall, List.map_map]
  congr 1
  congr 1
  exact List.map_id' _

/-- The rule-table parts of the source are the claim's table looked up. -/
theorem selectRuleParts_eq (kvs : List (List Char × Json))
    (h : ∀ p ∈ kvs, p.2 = .null ∨ ∃ s, p.2 = .str s) :
    selectRuleParts (.obj kvs) =
      .ok ((claimRuleFields (typeString kvs)).map (pyGet kvs)) := by
  rcases pyGet_shape kvs h (strL "type") with ht | ⟨s, ht⟩
  · simp [selectRuleParts, typeString, claimRuleFields, jsonIsStr, ht]
  · simp only [selectRuleParts, typeString, claimRuleFields, jsonIsStr, ht]
    by_cases h1 : s = strL "notes"
    · rw [h1]
      rfl
    · by_cases h2 : s = strL "exam"
      · rw [h2]
        rfl
      · by_cases h3 : s = strL "book"
        · rw [h3]
          rfl
        · by_cases h4 : s = strL "paper"
          · rw [h4]
            rfl
          · by_cases h5 : s = strL "other"
            · rw [h5]
              rfl
            · simp only [decide_eq_true_eq]
              rw [if_neg h1, if_neg h2, if_neg h3, if_neg h4, if_neg h5,
                if_neg h1, if_neg h2, if_neg h3, if_neg h4]
              rfl

/-!
## C5 — the rule table of `format_new_name`

Confirmed: with no template, the fields are selected by `info.type` per the
claim's table, the non-null non-empty values are joined in order with `_`
(nulls omitted, never rendered empty), and the result is sanitized; the
claim's example is the witness. -/

/-- C5: on every string-or-null info mapping, `format_new_name` without a
template returns exactly the sanitized claim-side join of the rule-table
fields (absent when the join is empty). -/
theorem format_new_name_rule_table (kvs : List (List Char × Json))
    (h : ∀ p ∈ kvs, p.2 = .null ∨ ∃ s, p.2 = .str s) :
    format_new_name (.obj kvs) none =
      .ok (if claimJoinedName kvs = [] then none
           else some (sanitize (claimJoinedName kvs))) := by
  have hs := selectRuleParts_eq kvs h
  have hj : pyJoinUnderscore ((claimRuleFields (typeString kvs)).map (pyGet kvs))
      = .ok (claimJoinedName kvs) :=
    pyJoin_lookup_eq kvs h (claimRuleFields (typeString kvs))
  simp only [format_new_name, selectParts, hs, hj]
  by_cases hE : claimJoinedName kvs = []
  · simp [hE, sanitize]
  · simp [hE, sanitize, List.isEmpty_iff]

/-- Witness for `format_new_name_rule_table`: `type="notes"`,
`subject="s"`, `year="y"`, `author="a"` yields `"s_y_a"`. -/
theorem format_new_name_rule_table_witness :
    format_new_name (.obj [(strL "type", .str (strL "notes")),
      (strL "subject", .str (strL "s")), (strL "year", .str (strL "y")),
      (strL "author", .str (strL "a"))]) none = .ok (some (strL "s_y_a")) := by
  rw [format_new_name_rule_table _ (by
    intro p hp
    simp only [List.mem_cons, List.not_mem_nil, or_false] at hp
    rcases hp with rfl | rfl | rfl | rfl <;> exact Or.inr ⟨_, rfl⟩)]
  rfl

/-- Digit characters decode back to their value. -/
theorem digitChar_toNat : ∀ r, r < 10 → (Char.ofNat (48 + r)).toNat = 48 + r := by
  decide

/-- Decoding after appending one digit. -/
theorem decodeDigits_append (ds : List Char) (c : Char) :
    decodeDigits (ds ++ [c]) = decodeDigits ds * 10 + (c.toNat - 48) := by
  simp [decodeDigits, List.foldl_append]

/-- `decodeDigits` inverts the fuelled digit writer. -/
theorem natDigitsGo_decode : ∀ fuel n, n < fuel →
    decodeDigits (natDigitsGo fuel n) = n := by
  intro fuel
  induction fuel with
  | zero => intro n h; omega
  | succ fuel ih =>
    intro n h
    by_cases h10 : n < 10
    · rw [show natDigitsGo (fuel + 1) n = [Char.ofNat (48 + n)] by
        simp [natDigitsGo, h10]]
      simp [decodeDigits, digitChar_toNat n h10]
    · rw [show natDigitsGo (fuel + 1) n
          = natDigitsGo fuel (n / 10) ++ [Char.ofNat (48 + n % 10)] by
        simp [natDigitsGo, h10]]
      rw [decodeDigits_append, ih (n / 10) (by omega),
        digitChar_toNat (n % 10) (by omega)]
      omega

/-- Python's decimal spelling of the counter is injective. -/
theorem natDigits_inj {a b : Nat} (h : natDigits a = natDigits b) : a = b := by
  have ha := natDigitsGo_decode (a + 1) a (Nat.lt_succ_self a)
  have hb := natDigitsGo_decode (b + 1) b (Nat.lt_succ_self b)
  unfold natDigits at h
  rw [← ha, ← hb, h]

/-- Distinct counters give distinct loop candidates. -/
theorem uniqueCandidate_inj (parent : String) (stem suffix : List Char)
    {j k : Nat} (h : uniqueCandidate parent stem suffix j
      = uniqueCandidate parent stem suffix k) : j = k := by
  have hname : (stem ++ '_' :: natDigits j) ++ suffix
      = (stem ++ '_' :: natDigits k) ++ suffix := congrArg Path.name h
  have h1 : stem ++ '_' :: natDigits j = stem ++ '_' :: natDigits k :=
    List.append_cancel_right hname
  have h2 : '_' :: natDigits j = '_' :: natDigits k :=
    List.append_cancel_left h1
  exact natDigits_inj (List.cons.injEq _ _ _ _ ▸ h2).2

/-- Pigeonhole: among any `|fs| + 1` consecutive counters some candidate is
not in the snapshot. -/
theorem exists_unused (fs : List Path) (parent : String)
    (stem suffix : List Char) (start : Nat) :
    ∃ k, start ≤ k ∧ k < start + fs.length + 1 ∧
      pathExists fs (uniqueCandidate parent stem suffix k) = false := by
  by_contra hcon
  push_neg at hcon
  have hmapsto : ∀ k ∈ Finset.Icc start (start + fs.length),
      uniqueCandidate parent stem suffix k ∈ fs.toFinset := by
    intro k hk
    rw [Finset.mem_Icc] at hk
    have hne := hcon k hk.1 (by omega)
    have hb : pathExists fs (uniqueCandidate parent stem suffix k) = true := by
      cases hbb : pathExists fs (uniqueCandidate parent stem suffix k)
      · exact absurd hbb hne
      · rfl
    rw [List.mem_toFinset]
    exact List.elem_iff.mp hb
  have hinj : Set.InjOn (uniqueCandidate parent stem suffix)
      (Finset.Icc start (start + fs.length)) :=
    fun a _ b _ hab => uniqueCandidate_inj parent stem suffix hab
  have hcard := Finset.card_le_card_of_injOn _ hmapsto hinj
  rw [Nat.card_Icc] at hcard
  have hle := fs.toFinset_card_le
  omega

/-- Full specification of the renaming loop: under the guarantee that some
counter in reach is free, it returns the candidate at the smallest free
counter from `start` upward. -/
theorem getUniqueLoop_spec (fs : List Path) (parent : String)
    (stem suffix : List Char) :
    ∀ fuel start : Nat,
      (∃ k, start ≤ k ∧ k < start + fuel ∧
        pathExists fs (uniqueCandidate parent stem suffix k) = false) →
      ∃ k, start ≤ k ∧
        getUniqueLoop fs parent stem suffix start fuel
          = uniqueCandidate parent stem suffix k ∧
        pathExists fs (uniqueCandidate parent stem suffix k) = false ∧
        ∀ j, start ≤ j → j < k →
          pathExists fs (uniqueCandidate parent stem suffix j) = true := by
  intro fuel
  induction fuel with
  | zero =>
    intro start hex
    obtain ⟨k, h1, h2, _⟩ := hex
    omega
  | succ fuel ih =>
    intro start hex
    by_cases hc : pathExists fs (uniqueCandidate parent stem suffix start) = true
    · have hex' : ∃ k, start + 1 ≤ k ∧ k < start + 1 + fuel ∧
          pathExists fs (uniqueCandidate parent stem suffix k) = false := by
        obtain ⟨k, hk1, hk2, hk3⟩ := hex
        refine ⟨k, ?_, by omega, hk3⟩
        rcases Nat.eq_or_lt_of_le hk1 with rfl | hlt
        · rw [hk3] at hc
          cases hc
        · omega
      obtain ⟨k, hk1, hkeq, hkfree, hkmin⟩ := ih (start + 1) hex'
      refine ⟨k, by omega, ?_, hkfree, ?_⟩
      · rw [show getUniqueLoop fs parent stem suffix start (fuel + 1)
            = getUniqueLoop fs parent stem suffix (start + 1) fuel by
          simp [getUniqueLoop, hc]]
        exact hkeq
      · intro j hj1 hj2
        rcases Nat.eq_or_lt_of_le hj1 with rfl | hlt
        · exact hc
        · exact hkmin j (by omega) hj2
    · have hfalse : pathExists fs (uniqueCandidate parent stem suffix start)
          = false := Bool.eq_false_iff.mpr hc
      refine ⟨start, Nat.le_refl _, ?_, hfalse, fun j hj1 hj2 => by omega⟩
      rw [show getUniqueLoop fs parent stem suffix start (fuel + 1)
          = uniqueCandidate parent stem suffix start by
        simp [getUniqueLoop, hc]]

/-!
## C6 — `get_unique_path` on an existing destination

Confirmed: on an existing destination it returns the candidate
`parent / f"{stem}_{k}{suffix}"` for the smallest counter `k ≥ 1` whose
path is free in the snapshot — in particular a path that does not exist at
call time.  Determinism over a fixed snapshot is inherent: the embedding is
a pure function of the snapshot. -/

/-- C6: on an existing path, `get_unique_path` yields a non-existing
sibling built by appending `_k` to the stem before the suffix, at the
smallest free counter `k ≥ 1`. -/
theorem get_unique_path_spec (fs : List Path) (p : Path)
    (hp : pathExists fs p = true) :
    pathExists fs (get_unique_path fs p) = false ∧
    ∃ k, 1 ≤ k ∧
      get_unique_path fs p = uniqueCandidate p.parent p.stem p.suffix k ∧
      ∀ j, 1 ≤ j → j < k →
        pathExists fs (uniqueCandidate p.parent p.stem p.suffix j) = true := by
  have hex : ∃ k, 1 ≤ k ∧ k < 1 + (fs.length + 1) ∧
      pathExists fs (uniqueCandidate p.parent p.stem p.suffix k) = false := by
    obtain ⟨k, h1, h2, h3⟩ := exists_unused fs p.parent p.stem p.suffix 1
    exact ⟨k, h1, by omega, h3⟩
  obtain ⟨k, hk1, hkeq, hkfree, hkmin⟩ :=
    getUniqueLoop_spec fs p.parent p.stem p.suffix (fs.length + 1) 1 hex
  rw [show get_unique_path fs p
      = getUniqueLoop fs p.parent p.stem p.suffix 1 (fs.length + 1) by
    simp [get_unique_path, hp]]
  exact ⟨hkeq ▸ hkfree, k, hk1, hkeq, hkmin⟩

/-- Witness for `get_unique_path_spec`: with `d/n.txt` and `d/n_1.txt`
taken, renaming `d/n.txt` yields the free `d/n_2.txt`. -/
theorem get_unique_path_spec_witness :
    pathExists [⟨"d", strL "n.txt"⟩, ⟨"d", strL "n_1.txt"⟩] ⟨"d", strL "n.txt"⟩
        = true ∧
    pathExists [⟨"d", strL "n.txt"⟩, ⟨"d", strL "n_1.txt"⟩]
        (get_unique_path [⟨"d", strL "n.txt"⟩, ⟨"d", strL "n_1.txt"⟩]
          ⟨"d", strL "n.txt"⟩) = false ∧
    get_unique_path [⟨"d", strL "n.txt"⟩, ⟨"d", strL "n_1.txt"⟩]
        ⟨"d", strL "n.txt"⟩ = ⟨"d", strL "n_2.txt"⟩ :=
  ⟨rfl,
    (get_unique_path_spec [⟨"d", strL "n.txt"⟩, ⟨"d", strL "n_1.txt"⟩]
      ⟨"d", strL "n.txt"⟩ rfl).1,
    rfl⟩

/-- A dot-free list has no last dot. -/
theorem findLastDot_none {l : List Char} (h : '.' ∉ l) :
    findLastDot l = none := by
  induction l with
  | nil => rfl
  | cons c rest ih =>
    have hc : c ≠ '.' := fun hc => h (hc ▸ List.mem_cons_self c rest)
    have hr : '.' ∉ rest := fun hr => h (List.mem_cons_of_mem c hr)
    simp [findLastDot, ih hr, hc]

/-- The last-dot split of `base ++ "." ++ t` with dot-free parts. -/
theorem findLastDot_append {base t : List Char} (hb : '.' ∉ base)
    (ht : '.' ∉ t) : findLastDot (base ++ '.' :: t) = some (base, t) := by
  induction base with
  | nil => simp [findLastDot, findLastDot_none ht]
  | cons c rest ih =>
    have hc : c ≠ '.' := fun hc => hb (hc ▸ List.mem_cons_self c rest)
    have hr : '.' ∉ rest := fun hr => hb (List.mem_cons_of_mem c hr)
    simp [findLastDot, ih hr]

/-- A list with no last dot is dot-free. -/
theorem not_mem_of_findLastDot_none : ∀ {l : List Char},
    findLastDot l = none → '.' ∉ l := by
  intro l
  induction l with
  | nil => intro _ h; cases h
  | cons c rest ih =>
    intro h hmem
    simp only [findLastDot] at h
    cases hrec : findLastDot rest with
    | some q =>
      obtain ⟨q1, q2⟩ := q
      rw [hrec] at h
      cases h
    | none =>
      rw [hrec] at h
      by_cases hc : c = '.'
      · rw [if_pos hc] at h
        cases h
      · rcases List.mem_cons.mp hmem with h' | h'
        · exact hc h'.symm
        · exact ih hrec h'

/-- The part after the last dot is dot-free. -/
theorem findLastDot_post : ∀ {l pre post : List Char},
    findLastDot l = some (pre, post) → '.' ∉ post := by
  intro l
  induction l with
  | nil => intro pre post h; cases h
  | cons c rest ih =>
    intro pre post h
    simp only [findLastDot] at h
    cases hrec : findLastDot rest with
    | some q =>
      obtain ⟨q1, q2⟩ := q
      rw [hrec] at h
      cases h
      exact ih hrec
    | none =>
      rw [hrec] at h
      by_cases hc : c = '.'
      · rw [if_pos hc] at h
        cases h
        exact not_mem_of_findLastDot_none hrec
      · rw [if_neg hc] at h
        cases h

/-- Every path's suffix is empty, or a dot followed by a nonempty dot-free
tail. -/
theorem suffixShape (p : Path) :
    p.suffix = [] ∨ ∃ t, p.suffix = '.' :: t ∧ t ≠ [] ∧ '.' ∉ t := by
  unfold Path.suffix splitExt
  cases hf : findLastDot p.name with
  | none => exact Or.inl rfl
  | some pq =>
    obtain ⟨pre, post⟩ := pq
    by_cases hcond : pre.isEmpty || post.isEmpty
    · simp [hcond]
    · simp only [hcond, if_false, Bool.false_eq_true]
      refine Or.inr ⟨post, rfl, ?_, findLastDot_post hf⟩
      intro hpost
      simp [hpost] at hcond

/-- Splitting `base ++ ext` recovers `(base, ext)` when `base` is a
nonempty dot-free stem and `ext` is shaped like a suffix. -/
theorem splitExt_append {base ext : List Char} (hb : base ≠ [])
    (hdot : '.' ∉ base)
    (hext : ext = [] ∨ ∃ t, ext = '.' :: t ∧ t ≠ [] ∧ '.' ∉ t) :
    splitExt (base ++ ext) = (base, ext) := by
  rcases hext with rfl | ⟨t, rfl, htne, htdot⟩
  · rw [List.append_nil]
    unfold splitExt
    rw [findLastDot_none hdot]
  · unfold splitExt
    rw [findLastDot_append hdot htdot]
    have h1 : base.isEmpty = false := by
      cases base
      · exact absurd rfl hb
      · rfl
    have h2 : t.isEmpty = false := by
      cases t
      · exact absurd rfl htne
      · rfl
    simp [h1, h2]

/-- Sanitized names contain no dot. -/
theorem sanitizeWith_no_dot (W : Char → Bool) (s : List Char) :
    '.' ∉ sanitizeWith W s := by
  intro hmem
  have h := (mem_sanitizeWith W s '.' hmem).2.2 (by decide)
  exact absurd h (by decide)

/-- Digit runs contain no dot. -/
theorem natDigits_no_dot (n : Nat) : '.' ∉ natDigits n := by
  suffices h : ∀ fuel m, '.' ∉ natDigitsGo fuel m from h (n + 1) n
  intro fuel
  induction fuel with
  | zero => intro m h; cases h
  | succ fuel ih =>
    intro m hmem
    by_cases h10 : m < 10
    · rw [show natDigitsGo (fuel + 1) m = [Char.ofNat (48 + m)] by
        simp [natDigitsGo, h10]] at hmem
      have hm := List.mem_singleton.mp hmem
      have htn := digitChar_toNat m h10
      rw [← hm] at htn
      have h46 : ('.' : Char).toNat = 46 := rfl
      rw [h46] at htn
      omega
    · rw [show natDigitsGo (fuel + 1) m
          = natDigitsGo fuel (m / 10) ++ [Char.ofNat (48 + m % 10)] by
        simp [natDigitsGo, h10]] at hmem
      rcases List.mem_append.mp hmem with h | h
      · exact ih (m / 10) h
      · have hm := List.mem_singleton.mp h
        have htn := digitChar_toNat (m % 10) (by omega)
        rw [← hm] at htn
        have h46 : ('.' : Char).toNat = 46 := rfl
        rw [h46] at htn
        omega

/-- `with_name` with a clean base in front of the original suffix keeps the
stem/suffix split and the parent. -/
theorem base_ext_split (p : Path) (base : List Char) (hb : base ≠ [])
    (hdot : '.' ∉ base) :
    (p.withName (base ++ p.suffix)).stem = base ∧
    (p.withName (base ++ p.suffix)).suffix = p.suffix ∧
    (p.withName (base ++ p.suffix)).parent = p.parent := by
  have h := splitExt_append hb hdot (suffixShape p)
  refine ⟨?_, ?_, rfl⟩
  · show (splitExt (base ++ p.suffix)).1 = base
    rw [h]
  · show (splitExt (base ++ p.suffix)).2 = p.suffix
    rw [h]

/-- Every loop result is some candidate. -/
theorem getUniqueLoop_form (fs : List Path) (parent : String)
    (stem suffix : List Char) :
    ∀ fuel start, ∃ k, getUniqueLoop fs parent stem suffix start fuel
      = uniqueCandidate parent stem suffix k := by
  intro fuel
  induction fuel with
  | zero => intro start; exact ⟨start, rfl⟩
  | succ fuel ih =>
    intro start
    by_cases hc : pathExists fs (uniqueCandidate parent stem suffix start) = true
    · obtain ⟨k, hk⟩ := ih (start + 1)
      exact ⟨k, by simp [getUniqueLoop, hc, hk]⟩
    · exact ⟨start, by simp [getUniqueLoop, hc]⟩

/-- `get_unique_path` keeps the parent and, for a clean stem, the suffix. -/
theorem get_unique_path_parent_suffix (fs : List Path) (q : Path)
    (hstem_dot : '.' ∉ q.stem) :
    (get_unique_path fs q).parent = q.parent ∧
    (get_unique_path fs q).suffix = q.suffix := by
  unfold get_unique_path
  by_cases hq : pathExists fs q = true
  · rw [if_pos hq]
    obtain ⟨k, hk⟩ := getUniqueLoop_form fs q.parent q.stem q.suffix
      (fs.length + 1) 1
    rw [hk]
    refine ⟨rfl, ?_⟩
    have hbase_ne : q.stem ++ '_' :: natDigits k ≠ [] := by
      intro h
      exact List.cons_ne_nil '_' (natDigits k) (List.append_eq_nil.mp h).2
    have hbase_dot : '.' ∉ q.stem ++ '_' :: natDigits k := by
      intro h
      rcases List.mem_append.mp h with h | h
      · exact hstem_dot h
      · rcases List.mem_cons.mp h with h | h
        · exact absurd h (by decide)
        · exact natDigits_no_dot k h
    have hsplit := splitExt_append hbase_ne hbase_dot (suffixShape q)
    show (splitExt ((q.stem ++ '_' :: natDigits k) ++ q.suffix)).2 = q.suffix
    rw [hsplit]
  · rw [if_neg hq]
    exact ⟨rfl, rfl⟩

/-- The two destination forms the worker can return preserve parent and
suffix. -/
theorem dest_forms (filepath : Path) (nb : List Char) (hnb : nb ≠ [])
    (hdot : '.' ∉ nb) (fs : List Path) (np : Path)
    (hnp : np = filepath.withName (nb ++ filepath.suffix) ∨
      np = get_unique_path fs (filepath.withName (nb ++ filepath.suffix))) :
    np.parent = filepath.parent ∧ np.suffix = filepath.suffix := by
  have hsplit := base_ext_split filepath nb hnb hdot
  rcases hnp with rfl | rfl
  · exact ⟨hsplit.2.2, hsplit.2.1⟩
  · have h := get_unique_path_parent_suffix fs
      (filepath.withName (nb ++ filepath.suffix))
      (by rw [hsplit.1]; exact hdot)
    exact ⟨h.1.trans hsplit.2.2, h.2.trans hsplit.2.1⟩

/-- A successful `format_new_name` result is a sanitized (dot-free) name. -/
theorem format_new_name_ok_no_dot (info : Json) (template : Option (List Char))
    (nb : List Char) (h : format_new_name info template = .ok (some nb)) :
    '.' ∉ nb := by
  unfold format_new_name at h
  split at h
  · cases h
  · split at h
    · cases h
    · split at h
      · cases h
      · cases h
        exact sanitizeWith_no_dot _ _

/-!
## C10 — destinations stay in the same directory with the same suffix

Confirmed: every outcome that carries a destination path (the skip,
conflict-skip, dry-run, success and rename-error returns) names a sibling
of the original: same parent, same `pathlib` suffix.  This holds under
every conflict policy because the sanitized base name contains no dot, so
gluing it (and any `_k` counter, itself dot-free) in front of the original
suffix splits back into exactly that suffix. -/

/-- C10: any non-absent destination returned by the worker has the parent
and the suffix of the original file; only the stem differs. -/
theorem destination_preserves_parent_and_suffix (filepath : Path)
    (raw_response : Option (List Char)) (dry_run : Bool)
    (on_conflict : List Char) (template : Option (List Char)) (fs : List Path)
    (renameRes : RenameRes) (out : Outcome)
    (hout : process_and_rename_file filepath raw_response dry_run on_conflict
      template fs renameRes = .ok out)
    (np : Path) (hnp : out.2.1 = some np) :
    np.parent = filepath.parent ∧ np.suffix = filepath.suffix := by
  rcases raw_response with _ | raw
  · cases hout
    cases hnp
  · simp only [process_and_rename_file] at hout
    split at hout
    · cases hout
      cases hnp
    · split at hout
      · cases hout
        cases hnp
      · split at hout
        · cases hout
        · rename_i nbopt hfmt
          split at hout
          · cases hout
            cases hnp
          · rename_i nb
            split at hout
            · cases hout
              cases hnp
            · rename_i hnbne
              have hnb : nb ≠ [] := fun h => hnbne (by simp [h])
              have hdot : '.' ∉ nb := format_new_name_ok_no_dot _ _ _ hfmt
              split at hout
              · -- skipped
                cases hout
                cases hnp
                exact dest_forms filepath nb hnb hdot fs _ (Or.inl rfl)
              · split at hout
                · -- conflict_skipped
                  cases hout
                  cases hnp
                  exact dest_forms filepath nb hnb hdot fs _ (Or.inl rfl)
                · split at hout
                  · -- dry run, possibly after the rename policy
                    cases hout
                    cases hnp
                    split
                    · exact dest_forms filepath nb hnb hdot fs _ (Or.inr rfl)
                    · exact dest_forms filepath nb hnb hdot fs _ (Or.inl rfl)
                  · split at hout
                    · -- success
                      cases hout
                      cases hnp
                      split
                      · exact dest_forms filepath nb hnb hdot fs _ (Or.inr rfl)
                      · exact dest_forms filepath nb hnb hdot fs _ (Or.inl rfl)
                    · -- OS error
                      cases hout
                      cases hnp
                      split
                      · exact dest_forms filepath nb hnb hdot fs _ (Or.inr rfl)
                      · exact dest_forms filepath nb hnb hdot fs _ (Or.inl rfl)
                    · -- unknown error
                      cases hout
                      cases hnp
                      split
                      · exact dest_forms filepath nb hnb hdot fs _ (Or.inr rfl)
                      · exact dest_forms filepath nb hnb hdot fs _ (Or.inl rfl)

/-- Witness for `destination_preserves_parent_and_suffix`: a conflicting
book response against `d/f.pdf` under the rename policy lands on
`d/conflict_name_test_1.pdf` — same directory, same `.pdf` suffix. -/
theorem destination_preserves_parent_and_suffix_witness :
    (⟨"d", strL "conflict_name_test_1.pdf"⟩ : Path).parent
        = (⟨"d", strL "f.pdf"⟩ : Path).parent ∧
    (⟨"d", strL "conflict_name_test_1.pdf"⟩ : Path).suffix
        = (⟨"d", strL "f.pdf"⟩ : Path).suffix :=
  destination_preserves_parent_and_suffix ⟨"d", strL "f.pdf"⟩
    (some (strL "\x7b\"type\": \"book\", \"title\": \"conflict_name\", \"author\": \"test\"\x7d"))
    false (strL "rename") (some (strL "\x7btitle\x7d_\x7bauthor\x7d"))
    [⟨"d", strL "f.pdf"⟩, ⟨"d", strL "conflict_name_test.pdf"⟩] .ok
    (⟨"d", strL "f.pdf"⟩, some ⟨"d", strL "conflict_name_test_1.pdf"⟩,
      strL "success")
    rfl ⟨"d", strL "conflict_name_test_1.pdf"⟩ rfl

/-!
## C8 — worker-pool size -/

/-- C8: the batch pool size is `min(desired, number of files)` for the
desired count "requested jobs if positive, else available parallelism,
else 4", so it never exceeds the file count; a non-recursive run uses one
worker. -/
theorem numWorkers_spec (recursive : Bool) (jobs : Option Int)
    (cpuCount : Option Nat) (numFiles : Nat) :
    (recursive = true →
      numWorkers recursive jobs cpuCount numFiles =
        min (desiredWorkers jobs cpuCount) numFiles
      ∧ numWorkers recursive jobs cpuCount numFiles ≤ numFiles)
    ∧ (recursive = false → numWorkers recursive jobs cpuCount numFiles = 1)
    ∧ (∀ j, jobs = some j → 0 < j → desiredWorkers jobs cpuCount = j.toNat)
    ∧ (∀ j, jobs = some j → ¬0 < j →
        desiredWorkers jobs cpuCount = cpuCount.getD 4)
    ∧ (jobs = none → desiredWorkers jobs cpuCount = cpuCount.getD 4) := by
  refine ⟨?_, ?_, ?_, ?_, ?_⟩
  · intro hr
    subst hr
    exact ⟨by simp [numWorkers], by simp [numWorkers]⟩
  · intro hr
    subst hr
    simp [numWorkers]
  · intro j hj hpos
    simp [desiredWorkers, hj, hpos]
  · intro j hj hpos
    simp [desiredWorkers, hj, hpos]
  · intro hj
    simp [desiredWorkers, hj]

/-- Witness for `numWorkers_spec`: 8 requested jobs over 3 files gives a
pool of 3; a non-recursive run gives 1. -/
theorem numWorkers_spec_witness :
    numWorkers true (some 8) (some 16) 3 = min (desiredWorkers (some 8) (some 16)) 3
    ∧ numWorkers false (some 8) (some 16) 3 = 1 :=
  ⟨((numWorkers_spec true (some 8) (some 16) 3).1 rfl).1,
    (numWorkers_spec false (some 8) (some 16) 3).2.1 rfl⟩

end Srn
